import Mathlib

/-!
Verification of the core of `twap-from-file.cpp`.

The C++ program has two components:

* `OrderBook` — two maps, `order_price_map_ : map<int, double>` and
  `price_count_map_ : map<double, int>`, with operations `insert_order`,
  `erase_order` and `max_price`.
* `TWAP` — an incremental time-weighted-average-price accumulator with
  fields `last_price_`, `last_time_`, `avg_price_`, `total_time_` and
  operation `next_price`.

Embedding choices: C++ `double` prices are modelled as `ℚ`; the NaN
sentinel used for "no price" / "undefined average" is modelled as `none`
in `Option ℚ` (NaN propagation through arithmetic becomes `Option.map`).
C++ `int` times and counts are modelled as `ℤ` (no overflow occurs in the
quantities the claims are about). `std::map`s are modelled as association
lists with unique keys; only the key set and the key-value association are
observable through the program's operations, so the sortedness of
`std::map` is reflected solely in `max_price`, which takes the greatest
key.
-/

namespace TwapFromFile

/-- Association-list lookup, modelling `std::map::find`. -/
def lookupKey {α β : Type} [DecidableEq α] (k : α) : List (α × β) → Option β
  | [] => none
  | (k', v) :: rest => if k = k' then some v else lookupKey k rest

/-- Association-list update of an existing key, modelling writing through a
`std::map` iterator. A key that is absent is left absent. -/
def setKey {α β : Type} [DecidableEq α] (k : α) (v : β) : List (α × β) → List (α × β)
  | [] => []
  | (k', v') :: rest => if k = k' then (k', v) :: rest else (k', v') :: setKey k v rest

/-- Association-list removal of a key, modelling `std::map::erase`. -/
def eraseKey {α β : Type} [DecidableEq α] (k : α) : List (α × β) → List (α × β)
  | [] => []
  | (k', v') :: rest => if k = k' then rest else (k', v') :: eraseKey k rest

/-- Greatest key of an association list, modelling `rbegin()->first` of a
`std::map` (which is sorted by key). -/
def maxKey {β : Type} : List (ℚ × β) → Option ℚ
  | [] => none
  | (k, _) :: rest =>
    match maxKey rest with
    | none => some k
    | some m => some (max k m)

/-- State of the C++ `OrderBook` class. -/
structure OrderBook where
  order_price_map : List (ℤ × ℚ)
  price_count_map : List (ℚ × ℤ)
deriving DecidableEq, Repr

/-- A freshly constructed `OrderBook` (both maps empty). -/
def OrderBook.init : OrderBook := ⟨[], []⟩

/-- `OrderBook::insert_order`: no-op when the order id already exists;
otherwise record the order and increment (or create at 1) the count at its
price. -/
def OrderBook.insert_order (b : OrderBook) (order_id : ℤ) (price : ℚ) : OrderBook :=
  match lookupKey order_id b.order_price_map with
  | some _ => b
  | none =>
    let orders := (order_id, price) :: b.order_price_map
    match lookupKey price b.price_count_map with
    | none => ⟨orders, (price, 1) :: b.price_count_map⟩
    | some c => ⟨orders, setKey price (c + 1) b.price_count_map⟩

/-- `OrderBook::erase_order`: no-op when the order id does not exist;
otherwise remove the order, decrement the count at its price, and drop the
price entry when the count reaches zero. The inner `none` case is
unreachable from `OrderBook.init` (in the C++ it would dereference
`end()`); it is modelled as leaving the count map unchanged. -/
def OrderBook.erase_order (b : OrderBook) (order_id : ℤ) : OrderBook :=
  match lookupKey order_id b.order_price_map with
  | none => b
  | some price =>
    let orders := eraseKey order_id b.order_price_map
    match lookupKey price b.price_count_map with
    | none => ⟨orders, b.price_count_map⟩
    | some c =>
      if c - 1 ≤ 0 then ⟨orders, eraseKey price b.price_count_map⟩
      else ⟨orders, setKey price (c - 1) b.price_count_map⟩

/-- `OrderBook::max_price`: NaN (here `none`) when the count map is empty,
otherwise its greatest key. -/
def OrderBook.max_price (b : OrderBook) : Option ℚ :=
  maxKey b.price_count_map

/-- One parsed order-book event, as fed to the book by the driver loop. -/
inductive BookOp where
  | ins (order_id : ℤ) (price : ℚ)
  | er (order_id : ℤ)
deriving DecidableEq, Repr

/-- Apply one event to the book. -/
def applyOp (b : OrderBook) : BookOp → OrderBook
  | .ins order_id price => b.insert_order order_id price
  | .er order_id => b.erase_order order_id

/-- The book reached from empty by a sequence of events. -/
def runOps (ops : List BookOp) : OrderBook :=
  ops.foldl applyOp OrderBook.init

/-- State of the C++ `TWAP` class. `avg_price` is what `avg_price()`
(the current average) returns; `none` models NaN. -/
structure TWAP where
  last_price : Option ℚ
  last_time : ℤ
  avg_price : Option ℚ
  total_time : ℤ
deriving DecidableEq, Repr

/-- The `TWAP` constructor: NaN last price and average, zero times. -/
def TWAP.init : TWAP := ⟨none, 0, none, 0⟩

/-- `TWAP::next_price`. When the last price is NaN the whole update block
is skipped (the C++ guard is `!isnan(last_price_)`), and the call always
falls through to recording `(time, price)` as the new last observation —
except that a negative elapsed time returns early, recording nothing. -/
def TWAP.next_price (s : TWAP) (time : ℤ) (price : Option ℚ) : TWAP :=
  match s.last_price with
  | none => { s with last_price := price, last_time := time }
  | some lp =>
    let add_time := time - s.last_time
    if add_time < 0 then
      s
    else if 0 < s.total_time then
      let new_total := s.total_time + add_time
      { last_price := price
        last_time := time
        avg_price := s.avg_price.map fun a =>
          a / (new_total : ℚ) * (s.total_time : ℚ) + lp / (new_total : ℚ) * (add_time : ℚ)
        total_time := new_total }
    else
      { last_price := price, last_time := time, avg_price := some lp, total_time := add_time }

/-- The accumulator state after feeding a whole observation sequence to a
freshly constructed `TWAP`. -/
def TWAP.run (obs : List (ℤ × Option ℚ)) : TWAP :=
  obs.foldl (fun s tp => s.next_price tp.1 tp.2) TWAP.init

/-- Contribution of the completed interval from observation `x` to
observation `y` to the reference weighted sum: the starting price times the
interval length when the starting price is defined, otherwise zero. -/
def intervalSum (x y : ℤ × Option ℚ) : ℚ :=
  match x.2 with
  | none => 0
  | some q => q * ((y.1 - x.1 : ℤ) : ℚ)

/-- Contribution of the completed interval from observation `x` to
observation `y` to the reference total weight: the interval length when the
starting price is defined, otherwise zero. -/
def intervalTime (x y : ℤ × Option ℚ) : ℤ :=
  match x.2 with
  | none => 0
  | some _ => y.1 - x.1

/-- Reference weighted sum for an observation sequence, following the
spec's words in exact rational arithmetic: the sum over all completed
intervals whose starting price is defined of the starting price times the
interval length. -/
def refSum : List (ℤ × Option ℚ) → ℚ
  | [] => 0
  | [_] => 0
  | x :: y :: rest => refSum (y :: rest) + intervalSum x y

/-- Reference total weight for an observation sequence, following the
spec's words: the sum of the lengths of the completed intervals whose
starting price is defined. -/
def refTime : List (ℤ × Option ℚ) → ℤ
  | [] => 0
  | [_] => 0
  | x :: y :: rest => refTime (y :: rest) + intervalTime x y

/-- Inductive invariant of `OrderBook`: keys of both maps are unique, each
count is exactly the number of live orders at that price and is at least 1,
each live order's price is a key of the count map, and the counts sum to
the number of live orders. -/
def Inv (b : OrderBook) : Prop :=
  (b.order_price_map.map Prod.fst).Nodup
  ∧ (b.price_count_map.map Prod.fst).Nodup
  ∧ (∀ p c, lookupKey p b.price_count_map = some c →
      c = (b.order_price_map.countP (fun e => decide (e.2 = p)) : ℤ) ∧ 1 ≤ c)
  ∧ (∀ e ∈ b.order_price_map, (lookupKey e.2 b.price_count_map).isSome)
  ∧ (b.price_count_map.map Prod.snd).sum = (b.order_price_map.length : ℤ)

/-- C1 (as stated) is false: after a single observation with an undefined
price, a backwards-in-time observation is not discarded — the C++ `isnan`
guard skips the monotonicity check, so the new observation is recorded and
`last_price`/`last_time` change. -/
theorem claim_C1_counterexample :
    ((3 : ℤ) - (TWAP.next_price TWAP.init 5 none).last_time < 0)
    ∧ TWAP.next_price (TWAP.next_price TWAP.init 5 none) 3 (some 10)
        ≠ TWAP.next_price TWAP.init 5 none := by
  decide

/-- C1 (amended): when the previously recorded price is defined, a call
`observe(time, price)` with `time - last_time < 0` leaves the entire
accumulator state unchanged. -/
theorem claim_C1_amended :
    ∀ (s : TWAP) (lp : ℚ) (t : ℤ) (p : Option ℚ),
      s.last_price = some lp → t - s.last_time < 0 → s.next_price t p = s := by
  intro s lp t p hlp hneg
  simp [TWAP.next_price, hlp, hneg]

/-- Witness for the amended C1 at a concrete state and input. -/
theorem claim_C1_amended_witness :
    TWAP.next_price ⟨some 20, 5, some 10, 5⟩ 3 (some 30) = ⟨some 20, 5, some 10, 5⟩ :=
  claim_C1_amended ⟨some 20, 5, some 10, 5⟩ 20 3 (some 30) rfl (by decide)

/-- C5: from a state whose recorded last price is undefined, a forwards (or
equal-time) observation leaves `avg_price` and `total_time` unchanged and
records the new observation; in particular the spec's scenario
`observe(0,10)`, `observe(10,undefined)`, `observe(20,20)` has average 10
and total time 10 after both the 2nd and the 3rd call. -/
theorem claim_C5 :
    (∀ (s : TWAP) (t : ℤ) (p : Option ℚ), s.last_price = none → s.last_time ≤ t →
        s.next_price t p = { s with last_price := p, last_time := t })
    ∧ TWAP.run [(0, some 10), (10, none)] = ⟨none, 10, some 10, 10⟩
    ∧ TWAP.run [(0, some 10), (10, none), (20, some 20)] = ⟨some 20, 20, some 10, 10⟩ := by
  refine ⟨?_, by decide, by decide⟩
  intro s t p hlp _
  simp [TWAP.next_price, hlp]

/-- Witness for C5 at a concrete state and input. -/
theorem claim_C5_witness :
    TWAP.next_price ⟨none, 3, some 7, 5⟩ 4 (some 2) = ⟨some 2, 4, some 7, 5⟩ :=
  claim_C5.1 ⟨none, 3, some 7, 5⟩ 4 (some 2) rfl (by decide)

/-- C8: the first call on a fresh accumulator records the observation,
keeps `avg_price = none` and `total_time = 0`, so the current average is
still undefined. -/
theorem claim_C8 :
    ∀ (t : ℤ) (p : Option ℚ),
      TWAP.next_price TWAP.init t p = ⟨p, t, none, 0⟩
      ∧ (TWAP.next_price TWAP.init t p).avg_price = none := by
  intro t p
  exact ⟨rfl, rfl⟩

/-- C9: when the recorded last price is undefined, a backwards-in-time
observation is not discarded: it is recorded as the new last observation
while `avg_price` and `total_time` are unchanged. -/
theorem claim_C9 :
    ∀ (s : TWAP) (t : ℤ) (p : Option ℚ), s.last_price = none → t < s.last_time →
      s.next_price t p = { s with last_price := p, last_time := t } := by
  intro s t p hlp _
  simp [TWAP.next_price, hlp]

/-- Witness for C9 at a concrete state and input. -/
theorem claim_C9_witness :
    TWAP.next_price ⟨none, 9, some 4, 6⟩ 2 (some 3) = ⟨some 3, 2, some 4, 6⟩ :=
  claim_C9 ⟨none, 9, some 4, 6⟩ 2 (some 3) rfl (by decide)

/-- C10: with a defined last price and `total_time = 0`, observing at the
same timestamp sets `avg_price` to the last price while `total_time` stays
0, so the current average becomes defined. -/
theorem claim_C10 :
    ∀ (s : TWAP) (lp : ℚ) (p : Option ℚ), s.last_price = some lp → s.total_time = 0 →
      s.next_price s.last_time p = ⟨p, s.last_time, some lp, 0⟩
      ∧ (s.next_price s.last_time p).avg_price.isSome := by
  intro s lp p hlp htt
  have h : s.next_price s.last_time p = ⟨p, s.last_time, some lp, 0⟩ := by
    simp [TWAP.next_price, hlp, htt]
  exact ⟨h, by rw [h]; rfl⟩

/-- Witness for C10 at a concrete state and input. -/
theorem claim_C10_witness :
    TWAP.next_price ⟨some 8, 4, none, 0⟩ 4 none = ⟨none, 4, some 8, 0⟩
    ∧ (TWAP.next_price ⟨some 8, 4, none, 0⟩ 4 none).avg_price.isSome :=
  claim_C10 ⟨some 8, 4, none, 0⟩ 8 none rfl rfl

theorem lookupKey_eq_none_iff {α β : Type} [DecidableEq α] (k : α) (l : List (α × β)) :
    lookupKey k l = none ↔ k ∉ l.map Prod.fst := by
  induction l with
  | nil => simp [lookupKey]
  | cons e rest ih =>
    obtain ⟨k', v⟩ := e
    by_cases h : k = k' <;> simp [lookupKey, h, ih]

theorem mem_of_lookupKey_eq_some {α β : Type} [DecidableEq α] {k : α} {v : β}
    {l : List (α × β)} (h : lookupKey k l = some v) : (k, v) ∈ l := by
  induction l with
  | nil => simp [lookupKey] at h
  | cons e rest ih =>
    obtain ⟨k', v'⟩ := e
    by_cases hk : k = k'
    · subst hk
      simp [lookupKey] at h
      simp [h]
    · simp [lookupKey, hk] at h
      simp [ih h]

theorem lookupKey_eq_some_of_mem {α β : Type} [DecidableEq α] {k : α} {v : β}
    {l : List (α × β)} (hnd : (l.map Prod.fst).Nodup) (h : (k, v) ∈ l) :
    lookupKey k l = some v := by
  induction l with
  | nil => simp at h
  | cons e rest ih =>
    obtain ⟨k', v'⟩ := e
    simp only [List.map_cons, List.nodup_cons] at hnd
    simp only [List.mem_cons, Prod.mk.injEq] at h
    rcases h with ⟨h1, h2⟩ | h
    · simp [lookupKey, h1, h2]
    · have hk : k ≠ k' := by
        rintro rfl
        exact hnd.1 (List.mem_map_of_mem Prod.fst h)
      simp [lookupKey, hk, ih hnd.2 h]

theorem map_fst_setKey {α β : Type} [DecidableEq α] (k : α) (v : β) (l : List (α × β)) :
    (setKey k v l).map Prod.fst = l.map Prod.fst := by
  induction l with
  | nil => rfl
  | cons e rest ih =>
    obtain ⟨k', v'⟩ := e
    by_cases h : k = k' <;> simp [setKey, h, ih]

theorem lookupKey_setKey_self {α β : Type} [DecidableEq α] {k : α} {c : β} (v : β)
    {l : List (α × β)} (h : lookupKey k l = some c) :
    lookupKey k (setKey k v l) = some v := by
  induction l with
  | nil => simp [lookupKey] at h
  | cons e rest ih =>
    obtain ⟨k', v'⟩ := e
    by_cases hk : k = k'
    · simp [setKey, lookupKey, hk]
    · simp only [lookupKey, if_neg hk] at h
      simp [setKey, lookupKey, hk, ih h]

theorem lookupKey_setKey_ne {α β : Type} [DecidableEq α] {k k' : α} (hne : k' ≠ k)
    (v : β) (l : List (α × β)) :
    lookupKey k' (setKey k v l) = lookupKey k' l := by
  induction l with
  | nil => rfl
  | cons e rest ih =>
    obtain ⟨k0, v0⟩ := e
    by_cases hk : k = k0
    · subst hk
      simp [setKey, lookupKey, hne]
    · by_cases hk' : k' = k0 <;> simp [setKey, lookupKey, hk, hk', ih]

theorem sum_snd_setKey {α : Type} [DecidableEq α] {k : α} {c : ℤ} (v : ℤ)
    {l : List (α × ℤ)} (h : lookupKey k l = some c) :
    ((setKey k v l).map Prod.snd).sum = (l.map Prod.snd).sum - c + v := by
  induction l with
  | nil => simp [lookupKey] at h
  | cons e rest ih =>
    obtain ⟨k0, v0⟩ := e
    by_cases hk : k = k0
    · simp only [lookupKey, if_pos hk, Option.some.injEq] at h
      subst h
      simp [setKey, hk]
      omega
    · simp only [lookupKey, if_neg hk] at h
      simp [setKey, hk, ih h]
      omega

theorem eraseKey_sublist {α β : Type} [DecidableEq α] (k : α) (l : List (α × β)) :
    (eraseKey k l).Sublist l := by
  induction l with
  | nil => simp [eraseKey]
  | cons e rest ih =>
    obtain ⟨k0, v0⟩ := e
    by_cases hk : k = k0
    · simp only [eraseKey, if_pos hk]
      exact List.sublist_cons_self _ _
    · simp only [eraseKey, if_neg hk]
      exact ih.cons₂ _

theorem lookupKey_eraseKey_self {α β : Type} [DecidableEq α] (k : α)
    {l : List (α × β)} (hnd : (l.map Prod.fst).Nodup) :
    lookupKey k (eraseKey k l) = none := by
  induction l with
  | nil => rfl
  | cons e rest ih =>
    obtain ⟨k0, v0⟩ := e
    simp only [List.map_cons, List.nodup_cons] at hnd
    by_cases hk : k = k0
    · subst hk
      simp only [eraseKey, if_pos rfl]
      exact (lookupKey_eq_none_iff _ _).mpr hnd.1
    · simp [eraseKey, lookupKey, hk, ih hnd.2]

theorem lookupKey_eraseKey_ne {α β : Type} [DecidableEq α] {k k' : α} (hne : k' ≠ k)
    (l : List (α × β)) :
    lookupKey k' (eraseKey k l) = lookupKey k' l := by
  induction l with
  | nil => rfl
  | cons e rest ih =>
    obtain ⟨k0, v0⟩ := e
    by_cases hk : k = k0
    · subst hk
      simp [eraseKey, lookupKey, hne]
    · by_cases hk' : k' = k0 <;> simp [eraseKey, lookupKey, hk, hk', ih]

theorem length_eraseKey {α β : Type} [DecidableEq α] {k : α} {v : β}
    {l : List (α × β)} (h : lookupKey k l = some v) :
    l.length = (eraseKey k l).length + 1 := by
  induction l with
  | nil => simp [lookupKey] at h
  | cons e rest ih =>
    obtain ⟨k0, v0⟩ := e
    by_cases hk : k = k0
    · simp [eraseKey, hk]
    · simp only [lookupKey, if_neg hk] at h
      simp [eraseKey, hk, ih h]

theorem sum_snd_eraseKey {α : Type} [DecidableEq α] {k : α} {v : ℤ}
    {l : List (α × ℤ)} (h : lookupKey k l = some v) :
    ((eraseKey k l).map Prod.snd).sum = (l.map Prod.snd).sum - v := by
  induction l with
  | nil => simp [lookupKey] at h
  | cons e rest ih =>
    obtain ⟨k0, v0⟩ := e
    by_cases hk : k = k0
    · simp only [lookupKey, if_pos hk, Option.some.injEq] at h
      subst h
      simp [eraseKey, hk]
    · simp only [lookupKey, if_neg hk] at h
      simp [eraseKey, hk, ih h]
      omega

theorem countP_eraseKey {α β : Type} [DecidableEq α] {k : α} {v : β}
    {l : List (α × β)} (h : lookupKey k l = some v) (p : α × β → Bool) :
    l.countP p = (eraseKey k l).countP p + (if p (k, v) then 1 else 0) := by
  induction l with
  | nil => simp [lookupKey] at h
  | cons e rest ih =>
    obtain ⟨k0, v0⟩ := e
    by_cases hk : k = k0
    · simp only [lookupKey, if_pos hk, Option.some.injEq] at h
      subst hk
      subst h
      simp [eraseKey, List.countP_cons]
    · simp only [lookupKey, if_neg hk] at h
      simp only [eraseKey, if_neg hk, List.countP_cons, ih h]
      omega

theorem maxKey_eq_none_iff {β : Type} (l : List (ℚ × β)) : maxKey l = none ↔ l = [] := by
  cases l with
  | nil => simp [maxKey]
  | cons e rest =>
    obtain ⟨k, v⟩ := e
    cases hr : maxKey rest <;> simp [maxKey, hr]

theorem maxKey_mem {β : Type} {l : List (ℚ × β)} {m : ℚ} (h : maxKey l = some m) :
    m ∈ l.map Prod.fst := by
  induction l generalizing m with
  | nil => simp [maxKey] at h
  | cons e rest ih =>
    obtain ⟨k, v⟩ := e
    cases hr : maxKey rest with
    | none =>
      simp only [maxKey, hr, Option.some.injEq] at h
      simp [← h]
    | some m0 =>
      simp only [maxKey, hr, Option.some.injEq] at h
      rcases max_choice k m0 with hc | hc
      · rw [hc] at h
        simp [← h]
      · rw [hc] at h
        subst h
        simp [ih hr]

theorem le_maxKey {β : Type} {l : List (ℚ × β)} {m : ℚ} (h : maxKey l = some m) :
    ∀ x ∈ l.map Prod.fst, x ≤ m := by
  induction l generalizing m with
  | nil => simp
  | cons e rest ih =>
    obtain ⟨k, v⟩ := e
    intro x hx
    simp only [List.map_cons, List.mem_cons] at hx
    cases hr : maxKey rest with
    | none =>
      have hrest : rest = [] := (maxKey_eq_none_iff rest).mp hr
      simp only [maxKey, hr, Option.some.injEq] at h
      subst hrest
      rcases hx with hx | hx
      · rw [hx, ← h]
      · simp at hx
    | some m0 =>
      simp only [maxKey, hr, Option.some.injEq] at h
      subst h
      rcases hx with hx | hx
      · rw [hx]
        exact le_max_left _ _
      · exact le_trans (ih hr x hx) (le_max_right _ _)

theorem Inv_init : Inv OrderBook.init := by
  refine ⟨by simp [OrderBook.init], by simp [OrderBook.init], ?_,
    by simp [OrderBook.init], by simp [OrderBook.init]⟩
  intro p c hc
  simp [OrderBook.init, lookupKey] at hc

theorem Inv_insert (b : OrderBook) (order_id : ℤ) (price : ℚ) (hb : Inv b) :
    Inv (b.insert_order order_id price) := by
  obtain ⟨h1, h2, h3, h4, h5⟩ := hb
  cases ho : lookupKey order_id b.order_price_map with
  | some p0 =>
    simp only [OrderBook.insert_order, ho]
    exact ⟨h1, h2, h3, h4, h5⟩
  | none =>
    cases hp : lookupKey price b.price_count_map with
    | none =>
      simp only [OrderBook.insert_order, ho, hp]
      have hcount0 : b.order_price_map.countP (fun e => decide (e.2 = price)) = 0 := by
        rw [List.countP_eq_zero]
        intro e he
        simp only [decide_eq_true_eq]
        intro h2e
        have hs := h4 e he
        rw [h2e, hp] at hs
        simp at hs
      refine ⟨?_, ?_, ?_, ?_, ?_⟩ <;> dsimp only
      · simp only [List.map_cons, List.nodup_cons]
        exact ⟨(lookupKey_eq_none_iff _ _).mp ho, h1⟩
      · simp only [List.map_cons, List.nodup_cons]
        exact ⟨(lookupKey_eq_none_iff _ _).mp hp, h2⟩
      · intro p c hc
        by_cases hpp : p = price
        · subst hpp
          simp [lookupKey] at hc
          refine ⟨?_, by omega⟩
          simp [List.countP_cons, hcount0]
          omega
        · simp only [lookupKey, if_neg hpp] at hc
          obtain ⟨he, hge⟩ := h3 p c hc
          refine ⟨?_, hge⟩
          rw [he]
          simp [List.countP_cons, Ne.symm hpp]
      · intro e he
        simp only [List.mem_cons] at he
        rcases he with he | he
        · subst he
          simp [lookupKey]
        · by_cases h2e : e.2 = price
          · simp [lookupKey, h2e]
          · simp only [lookupKey, if_neg h2e]
            exact h4 e he
      · simp only [List.map_cons, List.sum_cons, List.length_cons]
        push_cast
        omega
    | some c0 =>
      simp only [OrderBook.insert_order, ho, hp]
      obtain ⟨hc0eq, hc0ge⟩ := h3 price c0 hp
      refine ⟨?_, ?_, ?_, ?_, ?_⟩ <;> dsimp only
      · simp only [List.map_cons, List.nodup_cons]
        exact ⟨(lookupKey_eq_none_iff _ _).mp ho, h1⟩
      · rw [map_fst_setKey]
        exact h2
      · intro p c hc
        by_cases hpp : p = price
        · subst hpp
          rw [lookupKey_setKey_self (c0 + 1) hp] at hc
          simp only [Option.some.injEq] at hc
          subst hc
          refine ⟨?_, by omega⟩
          simp [List.countP_cons]
          omega
        · rw [lookupKey_setKey_ne hpp] at hc
          obtain ⟨he, hge⟩ := h3 p c hc
          refine ⟨?_, hge⟩
          rw [he]
          simp [List.countP_cons, Ne.symm hpp]
      · intro e he
        simp only [List.mem_cons] at he
        rcases he with he | he
        · subst he
          rw [show ((order_id, price) : ℤ × ℚ).2 = price from rfl,
            lookupKey_setKey_self (c0 + 1) hp]
          rfl
        · by_cases h2e : e.2 = price
          · rw [h2e, lookupKey_setKey_self (c0 + 1) hp]
            rfl
          · rw [lookupKey_setKey_ne h2e]
            exact h4 e he
      · rw [sum_snd_setKey (c0 + 1) hp]
        simp only [List.length_cons]
        push_cast
        omega

theorem Inv_erase (b : OrderBook) (order_id : ℤ) (hb : Inv b) :
    Inv (b.erase_order order_id) := by
  obtain ⟨h1, h2, h3, h4, h5⟩ := hb
  cases ho : lookupKey order_id b.order_price_map with
  | none =>
    simp only [OrderBook.erase_order, ho]
    exact ⟨h1, h2, h3, h4, h5⟩
  | some price =>
    have hoMem : (order_id, price) ∈ b.order_price_map := mem_of_lookupKey_eq_some ho
    have hpSome := h4 _ hoMem
    cases hp : lookupKey price b.price_count_map with
    | none =>
      rw [show ((order_id, price) : ℤ × ℚ).2 = price from rfl, hp] at hpSome
      simp at hpSome
    | some c =>
      obtain ⟨hceq, hcge⟩ := h3 price c hp
      have hcount : b.order_price_map.countP (fun e => decide (e.2 = price))
          = (eraseKey order_id b.order_price_map).countP (fun e => decide (e.2 = price)) + 1 := by
        have h := countP_eraseKey ho (fun e => decide (e.2 = price))
        simpa using h
      have hlen := length_eraseKey ho
      by_cases hc1 : c - 1 ≤ 0
      · simp only [OrderBook.erase_order, ho, hp, if_pos hc1]
        refine ⟨?_, ?_, ?_, ?_, ?_⟩ <;> dsimp only
        · exact List.Nodup.sublist ((eraseKey_sublist _ _).map Prod.fst) h1
        · exact List.Nodup.sublist ((eraseKey_sublist _ _).map Prod.fst) h2
        · intro p c' hc'
          by_cases hpp : p = price
          · subst hpp
            rw [lookupKey_eraseKey_self _ h2] at hc'
            exact absurd hc' (by simp)
          · rw [lookupKey_eraseKey_ne hpp] at hc'
            obtain ⟨he, hge⟩ := h3 p c' hc'
            refine ⟨?_, hge⟩
            have hcp := countP_eraseKey ho (fun e => decide (e.2 = p))
            simp [Ne.symm hpp] at hcp
            omega
        · intro e he
          have heOrig : e ∈ b.order_price_map := (eraseKey_sublist _ _).subset he
          by_cases h2e : e.2 = price
          · exfalso
            have hpos : 0 < (eraseKey order_id b.order_price_map).countP
                (fun e => decide (e.2 = price)) := by
              rw [List.countP_pos_iff]
              exact ⟨e, he, by simp [h2e]⟩
            omega
          · rw [lookupKey_eraseKey_ne h2e]
            exact h4 e heOrig
        · rw [sum_snd_eraseKey hp]
          omega
      · simp only [OrderBook.erase_order, ho, hp, if_neg hc1]
        refine ⟨?_, ?_, ?_, ?_, ?_⟩ <;> dsimp only
        · exact List.Nodup.sublist ((eraseKey_sublist _ _).map Prod.fst) h1
        · rw [map_fst_setKey]
          exact h2
        · intro p c' hc'
          by_cases hpp : p = price
          · subst hpp
            rw [lookupKey_setKey_self (c - 1) hp] at hc'
            simp only [Option.some.injEq] at hc'
            subst hc'
            exact ⟨by omega, by omega⟩
          · rw [lookupKey_setKey_ne hpp] at hc'
            obtain ⟨he, hge⟩ := h3 p c' hc'
            refine ⟨?_, hge⟩
            have hcp := countP_eraseKey ho (fun e => decide (e.2 = p))
            simp [Ne.symm hpp] at hcp
            omega
        · intro e he
          have heOrig : e ∈ b.order_price_map := (eraseKey_sublist _ _).subset he
          by_cases h2e : e.2 = price
          · rw [h2e, lookupKey_setKey_self (c - 1) hp]
            rfl
          · rw [lookupKey_setKey_ne h2e]
            exact h4 e heOrig
        · rw [sum_snd_setKey (c - 1) hp]
          omega

theorem Inv_foldl (ops : List BookOp) : ∀ b, Inv b → Inv (ops.foldl applyOp b) := by
  induction ops with
  | nil => exact fun b hb => hb
  | cons op rest ih =>
    intro b hb
    cases op with
    | ins order_id price => exact ih _ (Inv_insert b order_id price hb)
    | er order_id => exact ih _ (Inv_erase b order_id hb)

theorem Inv_runOps (ops : List BookOp) : Inv (runOps ops) :=
  Inv_foldl ops OrderBook.init Inv_init

theorem exists_order_at_price {b : OrderBook} (hb : Inv b) {p : ℚ} {c : ℤ}
    (hc : lookupKey p b.price_count_map = some c) :
    ∃ order_id, lookupKey order_id b.order_price_map = some p := by
  obtain ⟨h1, h2, h3, h4, h5⟩ := hb
  obtain ⟨hce, hcge⟩ := h3 p c hc
  have hpos : 0 < b.order_price_map.countP (fun e => decide (e.2 = p)) := by omega
  rw [List.countP_pos_iff] at hpos
  obtain ⟨e, he, hep⟩ := hpos
  obtain ⟨e1, e2⟩ := e
  simp only [decide_eq_true_eq] at hep
  subst hep
  exact ⟨e1, lookupKey_eq_some_of_mem h1 he⟩

/-- C3: from the empty book, every sequence of inserts and erases yields a
state where the counts sum to the number of live orders, every live
order's price is a key of the count map with count at least 1, every
counted price is the price of some live order, and no count is zero or
negative. -/
theorem claim_C3 (ops : List BookOp) :
    ((runOps ops).price_count_map.map Prod.snd).sum = ((runOps ops).order_price_map.length : ℤ)
    ∧ (∀ order_id p, lookupKey order_id (runOps ops).order_price_map = some p →
        ∃ c, lookupKey p (runOps ops).price_count_map = some c ∧ 1 ≤ c)
    ∧ (∀ p c, lookupKey p (runOps ops).price_count_map = some c →
        ∃ order_id, lookupKey order_id (runOps ops).order_price_map = some p)
    ∧ (∀ p c, lookupKey p (runOps ops).price_count_map = some c → 1 ≤ c) := by
  obtain ⟨h1, h2, h3, h4, h5⟩ := Inv_runOps ops
  refine ⟨h5, ?_, ?_, fun p c hc => (h3 p c hc).2⟩
  · intro order_id p hop
    have hmem := mem_of_lookupKey_eq_some hop
    have hs : (lookupKey p (runOps ops).price_count_map).isSome = true := h4 (order_id, p) hmem
    rcases Option.isSome_iff_exists.mp hs with ⟨c, hc⟩
    exact ⟨c, hc, (h3 p c hc).2⟩
  · intro p c hc
    exact exists_order_at_price (Inv_runOps ops) hc

/-- Witness for C3 at a concrete event sequence: two inserts at the same
price give that price a count of 2, which is at least 1. -/
theorem claim_C3_witness :
    lookupKey (10 : ℚ) (runOps [BookOp.ins 1 10, BookOp.ins 2 10]).price_count_map = some 2
    ∧ (1 : ℤ) ≤ 2 :=
  ⟨by decide, (claim_C3 [BookOp.ins 1 10, BookOp.ins 2 10]).2.2.2 10 2 (by decide)⟩

/-- C4: on every book reachable from empty, `max_price` is `none` exactly
when there are no live orders, and a defined result is the price of some
live order and an upper bound on all live orders' prices; in particular
after inserting prices 10, 12, 11 it is 12, and after then erasing the
order at 12 it is 11. -/
theorem claim_C4 :
    (∀ ops : List BookOp,
      ((runOps ops).order_price_map = [] ↔ (runOps ops).max_price = none)
      ∧ (∀ m, (runOps ops).max_price = some m →
          (∃ order_id, lookupKey order_id (runOps ops).order_price_map = some m)
          ∧ (∀ order_id p, lookupKey order_id (runOps ops).order_price_map = some p → p ≤ m)))
    ∧ (runOps [BookOp.ins 1 10, BookOp.ins 2 12, BookOp.ins 3 11]).max_price = some 12
    ∧ (runOps [BookOp.ins 1 10, BookOp.ins 2 12, BookOp.ins 3 11, BookOp.er 2]).max_price
        = some 11 := by
  refine ⟨?_, by decide, by decide⟩
  intro ops
  obtain ⟨h1, h2, h3, h4, h5⟩ := Inv_runOps ops
  constructor
  · constructor
    · intro hemp
      rw [OrderBook.max_price, maxKey_eq_none_iff]
      cases hpcm : (runOps ops).price_count_map with
      | nil => rfl
      | cons e rest =>
        exfalso
        obtain ⟨p0, c0⟩ := e
        have hlk : lookupKey p0 (runOps ops).price_count_map = some c0 := by
          rw [hpcm]
          simp [lookupKey]
        obtain ⟨hce, hcge⟩ := h3 p0 c0 hlk
        rw [hemp] at hce
        simp at hce
        omega
    · intro hmax
      rw [OrderBook.max_price, maxKey_eq_none_iff] at hmax
      cases hord : (runOps ops).order_price_map with
      | nil => rfl
      | cons e rest =>
        exfalso
        have hmem : e ∈ (runOps ops).order_price_map := by
          rw [hord]
          exact List.mem_cons_self _ _
        have hs := h4 e hmem
        rw [hmax] at hs
        simp [lookupKey] at hs
  · intro m hmax
    rw [OrderBook.max_price] at hmax
    have hmem := maxKey_mem hmax
    have hle := le_maxKey hmax
    constructor
    · obtain ⟨a, hin, hfst⟩ := List.mem_map.mp hmem
      obtain ⟨p0, c0⟩ := a
      simp only at hfst
      subst hfst
      exact exists_order_at_price ⟨h1, h2, h3, h4, h5⟩ (lookupKey_eq_some_of_mem h2 hin)
    · intro order_id p hop
      have hmemO := mem_of_lookupKey_eq_some hop
      have hs : (lookupKey p (runOps ops).price_count_map).isSome = true := h4 (order_id, p) hmemO
      rcases Option.isSome_iff_exists.mp hs with ⟨c, hc⟩
      exact hle p (List.mem_map_of_mem Prod.fst (mem_of_lookupKey_eq_some hc))

/-- Witness for C4 at a concrete event sequence: after inserting prices
10, 12, 11 the maximum 12 is a live order's price and bounds price 10. -/
theorem claim_C4_witness :
    lookupKey (2 : ℤ)
      (runOps [BookOp.ins 1 10, BookOp.ins 2 12, BookOp.ins 3 11]).order_price_map = some 12
    ∧ (10 : ℚ) ≤ 12 :=
  ⟨by decide, ((claim_C4.1 [BookOp.ins 1 10, BookOp.ins 2 12, BookOp.ins 3 11]).2 12
      (by decide)).2 1 10 (by decide)⟩

/-- C6: inserting an order id that is already live leaves the book (both
maps) unchanged, whatever the new price argument is, and is not an
error. -/
theorem claim_C6 (b : OrderBook) (order_id : ℤ) (p0 price : ℚ)
    (h : lookupKey order_id b.order_price_map = some p0) :
    b.insert_order order_id price = b := by
  simp only [OrderBook.insert_order, h]

/-- Witness for C6 at a concrete book and input. -/
theorem claim_C6_witness :
    OrderBook.insert_order ⟨[(7, 10)], [(10, 1)]⟩ 7 99 = ⟨[(7, 10)], [(10, 1)]⟩ :=
  claim_C6 ⟨[(7, 10)], [(10, 1)]⟩ 7 10 99 (by decide)

/-- C7: erasing an order id that is not live leaves the book (both maps)
unchanged and is not an error. -/
theorem claim_C7 (b : OrderBook) (order_id : ℤ)
    (h : lookupKey order_id b.order_price_map = none) :
    b.erase_order order_id = b := by
  simp only [OrderBook.erase_order, h]

/-- Witness for C7 at a concrete book and input. -/
theorem claim_C7_witness :
    OrderBook.erase_order ⟨[(7, 10)], [(10, 1)]⟩ 8 = ⟨[(7, 10)], [(10, 1)]⟩ :=
  claim_C7 ⟨[(7, 10)], [(10, 1)]⟩ 8 (by decide)

theorem mem_getLast? {α : Type} : ∀ {l : List α} {a : α}, l.getLast? = some a → a ∈ l := by
  intro l
  induction l with
  | nil =>
    intro a h
    simp at h
  | cons x rest ih =>
    intro a h
    cases rest with
    | nil =>
      rw [List.getLast?_singleton] at h
      injection h with h
      subst h
      exact List.mem_cons_self _ _
    | cons z rest' =>
      rw [List.getLast?_cons_cons] at h
      exact List.mem_cons_of_mem _ (ih h)

theorem refSum_concat (ys : List (ℤ × Option ℚ)) (x y : ℤ × Option ℚ)
    (h : ys.getLast? = some x) :
    refSum (ys ++ [y]) = refSum ys + intervalSum x y := by
  induction ys with
  | nil => simp at h
  | cons a rest ih =>
    cases rest with
    | nil =>
      rw [List.getLast?_singleton] at h
      injection h with h
      subst h
      simp [refSum]
    | cons b rest' =>
      rw [List.getLast?_cons_cons] at h
      have ihh : refSum (b :: (rest' ++ [y])) = refSum (b :: rest') + intervalSum x y := ih h
      show refSum (b :: (rest' ++ [y])) + intervalSum a b
          = (refSum (b :: rest') + intervalSum a b) + intervalSum x y
      rw [ihh]
      ring

theorem refTime_concat (ys : List (ℤ × Option ℚ)) (x y : ℤ × Option ℚ)
    (h : ys.getLast? = some x) :
    refTime (ys ++ [y]) = refTime ys + intervalTime x y := by
  induction ys with
  | nil => simp at h
  | cons a rest ih =>
    cases rest with
    | nil =>
      rw [List.getLast?_singleton] at h
      injection h with h
      subst h
      simp [refTime]
    | cons b rest' =>
      rw [List.getLast?_cons_cons] at h
      have ihh : refTime (b :: (rest' ++ [y])) = refTime (b :: rest') + intervalTime x y := ih h
      show refTime (b :: (rest' ++ [y])) + intervalTime a b
          = (refTime (b :: rest') + intervalTime a b) + intervalTime x y
      rw [ihh]
      ring

theorem next_price_skip (s : TWAP) (t : ℤ) (p : Option ℚ)
    (hlp : s.last_price = none) :
    s.next_price t p = { s with last_price := p, last_time := t } := by
  simp [TWAP.next_price, hlp]

theorem next_price_first (s : TWAP) (t : ℤ) (p : Option ℚ) (lp : ℚ)
    (hlp : s.last_price = some lp) (hd : ¬ t - s.last_time < 0)
    (htt : ¬ 0 < s.total_time) :
    s.next_price t p =
      { last_price := p, last_time := t, avg_price := some lp,
        total_time := t - s.last_time } := by
  simp [TWAP.next_price, hlp, hd, htt]

theorem next_price_blend (s : TWAP) (t : ℤ) (p : Option ℚ) (lp a : ℚ)
    (hlp : s.last_price = some lp) (havg : s.avg_price = some a)
    (hd : ¬ t - s.last_time < 0) (htt : 0 < s.total_time) :
    s.next_price t p =
      { last_price := p, last_time := t,
        avg_price := some (a / ((s.total_time + (t - s.last_time) : ℤ) : ℚ) * (s.total_time : ℚ)
          + lp / ((s.total_time + (t - s.last_time) : ℤ) : ℚ) * ((t - s.last_time : ℤ) : ℚ)),
        total_time := s.total_time + (t - s.last_time) } := by
  simp [TWAP.next_price, hlp, havg, hd, htt]

theorem twap_run_spec (obs : List (ℤ × Option ℚ)) :
    List.Pairwise (· ≤ ·) (obs.map Prod.fst) →
    (TWAP.run obs).total_time = refTime obs
    ∧ 0 ≤ refTime obs
    ∧ (refTime obs = 0 → refSum obs = 0)
    ∧ (0 < refTime obs →
        (TWAP.run obs).avg_price = some (refSum obs / (refTime obs : ℚ)))
    ∧ (∀ x, obs.getLast? = some x →
        (TWAP.run obs).last_price = x.2 ∧ (TWAP.run obs).last_time = x.1) := by
  induction obs using List.reverseRecOn with
  | nil =>
    intro _
    exact ⟨rfl, le_refl 0, fun _ => rfl, fun h => absurd h (by decide),
      fun x hx => by simp at hx⟩
  | append_singleton ys y ih =>
    intro hs
    rw [List.map_append, List.pairwise_append] at hs
    obtain ⟨hs1, -, hs3⟩ := hs
    obtain ⟨iht, ihnn, ihz, ihavg, ihlast⟩ := ih hs1
    have hrun : TWAP.run (ys ++ [y]) = (TWAP.run ys).next_price y.1 y.2 := by
      simp [TWAP.run, List.foldl_append]
    have hlast2 : (ys ++ [y]).getLast? = some y := List.getLast?_concat _
    cases hys : ys.getLast? with
    | none =>
      have hysnil : ys = [] := by
        cases ys with
        | nil => rfl
        | cons a rest => simp [List.getLast?_eq_none_iff] at hys
      subst hysnil
      refine ⟨?_, ?_, ?_, ?_, ?_⟩
      · simp [TWAP.run, TWAP.next_price, TWAP.init, refTime]
      · simp [refTime]
      · intro _
        simp [refSum]
      · intro h
        simp [refTime] at h
      · intro x hx
        simp only [List.nil_append, List.getLast?_singleton] at hx
        injection hx with hx
        subst hx
        constructor
        · simp [TWAP.run, TWAP.next_price, TWAP.init]
        · simp [TWAP.run, TWAP.next_price, TWAP.init]
    | some x =>
      obtain ⟨hlx_p, hlx_t⟩ := ihlast x hys
      have hxmem : x ∈ ys := mem_getLast? hys
      have hxy : x.1 ≤ y.1 := hs3 x.1 (List.mem_map_of_mem Prod.fst hxmem) y.1 (by simp)
      have hrs := refSum_concat ys x y hys
      have hrt := refTime_concat ys x y hys
      cases hx2 : x.2 with
      | none =>
        have hnp := next_price_skip (TWAP.run ys) y.1 y.2 (hlx_p.trans hx2)
        rw [hrun, hnp]
        simp only [intervalSum, intervalTime, hx2, add_zero] at hrs hrt
        refine ⟨?_, ?_, ?_, ?_, ?_⟩ <;> dsimp only
        · rw [iht, hrt]
        · rw [hrt]
          exact ihnn
        · rw [hrt, hrs]
          exact ihz
        · rw [hrt, hrs]
          exact ihavg
        · intro x' hx'
          rw [hlast2] at hx'
          injection hx' with hx'
          subst hx'
          exact ⟨rfl, rfl⟩
      | some q =>
        have hd : ¬ (y.1 - (TWAP.run ys).last_time < 0) := by
          rw [hlx_t]
          omega
        simp only [intervalSum, intervalTime, hx2] at hrs hrt
        by_cases htt : 0 < (TWAP.run ys).total_time
        · have hW : 0 < refTime ys := by
            rw [← iht]
            exact htt
          have havg := ihavg hW
          have hnp := next_price_blend (TWAP.run ys) y.1 y.2 q (refSum ys / (refTime ys : ℚ))
            (hlx_p.trans hx2) havg hd htt
          rw [hrun, hnp]
          refine ⟨?_, ?_, ?_, ?_, ?_⟩ <;> dsimp only
          · rw [iht, hlx_t, hrt]
          · rw [hrt]
            omega
          · intro h0
            rw [hrt] at h0
            exact absurd h0 (by omega)
          · intro hpos
            rw [iht, hlx_t, hrs, hrt]
            have hWne : ((refTime ys : ℤ) : ℚ) ≠ 0 := by
              exact_mod_cast (by omega : (refTime ys : ℤ) ≠ 0)
            have hNTne : (((refTime ys + (y.1 - x.1)) : ℤ) : ℚ) ≠ 0 := by
              exact_mod_cast (by omega : (refTime ys + (y.1 - x.1) : ℤ) ≠ 0)
            rw [Option.some_inj]
            push_cast at hWne hNTne ⊢
            field_simp
            ring
          · intro x' hx'
            rw [hlast2] at hx'
            injection hx' with hx'
            subst hx'
            exact ⟨rfl, rfl⟩
        · have hW0 : refTime ys = 0 := by omega
          have hS0 := ihz hW0
          have hnp := next_price_first (TWAP.run ys) y.1 y.2 q (hlx_p.trans hx2) hd htt
          rw [hrun, hnp]
          refine ⟨?_, ?_, ?_, ?_, ?_⟩ <;> dsimp only
          · rw [hlx_t, hrt]
            omega
          · rw [hrt]
            omega
          · intro h0
            rw [hrt] at h0
            rw [hrs]
            have hd0 : y.1 - x.1 = 0 := by omega
            simp [hS0, hd0]
          · intro hpos
            rw [hrt] at hpos
            rw [hrs, hrt, hW0, hS0]
            have hne : ((y.1 - x.1 : ℤ) : ℚ) ≠ 0 := by
              exact_mod_cast (by omega : (y.1 - x.1 : ℤ) ≠ 0)
            rw [Option.some_inj]
            push_cast at hne ⊢
            field_simp
          · intro x' hx'
            rw [hlast2] at hx'
            injection hx' with hx'
            subst hx'
            exact ⟨rfl, rfl⟩

/-- C2: for every observation sequence with non-decreasing timestamps,
after which the accumulated total time is positive, the incrementally
blended average equals the reference time-weighted mean in exact
arithmetic — the sum of (starting price times length) over completed
intervals with a defined starting price, divided by the sum of those
lengths — and the accumulated total time equals that reference weight; in
particular `observe(0,10)`, `observe(10,20)`, `observe(30,30)` gives
average 10 after the 2nd call and 50/3 after the 3rd. -/
theorem claim_C2 :
    (∀ obs : List (ℤ × Option ℚ), List.Pairwise (· ≤ ·) (obs.map Prod.fst) →
      0 < (TWAP.run obs).total_time →
      (TWAP.run obs).avg_price = some (refSum obs / (refTime obs : ℚ))
      ∧ (TWAP.run obs).total_time = refTime obs)
    ∧ (TWAP.run [(0, some 10), (10, some 20)]).avg_price = some 10
    ∧ (TWAP.run [(0, some 10), (10, some 20), (30, some 30)]).avg_price = some (50 / 3) := by
  refine ⟨?_, by decide, by norm_num [TWAP.run, TWAP.next_price, TWAP.init]⟩
  intro obs hsorted hpos
  obtain ⟨iht, ihnn, ihz, ihavg, ihlast⟩ := twap_run_spec obs hsorted
  refine ⟨ihavg (by omega), iht⟩

/-- Witness for C2 at the spec's concrete scenario. -/
theorem claim_C2_witness :
    List.Pairwise (· ≤ ·)
      (([(0, some 10), (10, some 20), (30, some 30)] : List (ℤ × Option ℚ)).map Prod.fst)
    ∧ 0 < (TWAP.run [(0, some 10), (10, some 20), (30, some 30)]).total_time
    ∧ (TWAP.run [(0, some 10), (10, some 20), (30, some 30)]).avg_price
        = some (refSum [(0, some 10), (10, some 20), (30, some 30)]
            / (refTime [(0, some 10), (10, some 20), (30, some 30)] : ℚ)) :=
  ⟨by decide, by decide, (claim_C2.1 [(0, some 10), (10, some 20), (30, some 30)]
      (by decide) (by decide)).1⟩

end TwapFromFile
